import Mathlib

/-!
# Verification of the MCDA logistics-tool scoring engine

Shallow embedding of `src/mcda_analysis.py`:

* a pandas row / Python dict is modelled as an association list from
  column names to Python values (`Row`);
* a Python value that can sit in a rating cell is either a number
  (modelled exactly as a rational) or a non-numeric payload such as a
  string (`PyVal`); multiplying a non-numeric rating by a float weight
  raises in Python, modelled as `Except.error (ScoreError.invalidRating c)`
  (the spec's `InvalidRatingError`);
* `calculate_weighted_score` iterates over the weight table in order,
  accumulating `rating * weight` for every criterion present in the row;
* `evaluate_tools` copies the frame (value semantics here), adds the
  `business_score` column, adds the dense descending `rank` column
  (pandas `rank(ascending=False, method='dense').astype(int)`), and sorts
  by `rank` ascending.  pandas' default `sort_values` kind is quicksort,
  whose order on tied keys is not documented; the model uses a stable
  insertion sort, numpy's actual behaviour on short arrays, as one
  admissible deterministic refinement of that call.
-/

/-- A Python value in a data-frame cell: a number (rationals model Python
ints/floats exactly for the arithmetic in this program) or a non-numeric
payload, represented by a string. -/
inductive PyVal where
  | num (q : ℚ)
  | str (s : String)
deriving DecidableEq

/-- A data-frame row / Python dict: ordered association list from column
names to values.  Python dicts preserve insertion order and have unique
keys; lookup returns the first binding. -/
abbrev Row := List (String × PyVal)

/-- Dict lookup: first binding of the key, if any (`d[k]` / `k in d`). -/
def lookupKey (k : String) : List (String × α) → Option α
  | [] => none
  | (k2, v) :: rest => if k2 = k then some v else lookupKey k rest

/-- Dict/column assignment `d[k] = v`: replace the first binding of `k`
in place, or append a fresh binding at the end. -/
def setCol : Row → String → PyVal → Row
  | [], k, v => [(k, v)]
  | (k2, v2) :: rest, k, v =>
      if k2 = k then (k, v) :: rest else (k2, v2) :: setCol rest k v

/-- The fixed stakeholder weight table `CRITERIA_WEIGHTS` from the source. -/
def CRITERIA_WEIGHTS : List (String × ℚ) :=
  [("ease_of_use", 20/100),
   ("integration_readiness", 20/100),
   ("cost_efficiency", 15/100),
   ("scalability", 15/100),
   ("paperwork_automation", 15/100),
   ("real_time_visibility", 15/100)]

/-- Failure of the scorer: the spec's `InvalidRatingError`, carrying the
offending criterion.  In the source a non-numeric rating makes
`tool_scores[criterion] * weight` raise; this is the propagated failure. -/
inductive ScoreError where
  | invalidRating (criterion : String)
deriving DecidableEq

/-- Round half to even on rationals (the deterministic decimal reading of
Python's `round`).  Uses the executable `Rat.floor`. -/
def roundHalfEven (q : ℚ) : ℤ :=
  if q - Rat.floor q < 1/2 then Rat.floor q
  else if 1/2 < q - Rat.floor q then Rat.floor q + 1
  else if Rat.floor q % 2 = 0 then Rat.floor q else Rat.floor q + 1

/-- `round(x, 2)`: round to two decimal places. -/
def round2 (q : ℚ) : ℚ := (roundHalfEven (100 * q) : ℚ) / 100

/-- The accumulation loop of `calculate_weighted_score`: walk the weight
table in order; a criterion present in the row contributes
`rating * weight`, an absent criterion is skipped, and a non-numeric
rating for a present criterion raises. -/
def accumWeighted : List (String × ℚ) → Row → ℚ → Except ScoreError ℚ
  | [], _, acc => Except.ok acc
  | (c, w) :: rest, tool_scores, acc =>
      match lookupKey c tool_scores with
      | none => accumWeighted rest tool_scores acc
      | some (PyVal.num r) => accumWeighted rest tool_scores (acc + r * w)
      | some (PyVal.str _) => Except.error (ScoreError.invalidRating c)

/-- The Scorer of the spec, explicit in the weight table (§9 of the spec
asks for exactly this parametrisation; the source fixes the table to the
global `CRITERIA_WEIGHTS`). -/
def calculate_weighted_score_with (weights : List (String × ℚ))
    (tool_scores : Row) : Except ScoreError ℚ :=
  (accumWeighted weights tool_scores 0).map round2

/-- `calculate_weighted_score` from the source: the scorer at the fixed
global weight table. -/
def calculate_weighted_score (tool_scores : Row) : Except ScoreError ℚ :=
  calculate_weighted_score_with CRITERIA_WEIGHTS tool_scores

/-- Dense descending rank of a score within a column of scores
(pandas `rank(ascending=False, method='dense')`): one plus the number of
distinct column values strictly greater. -/
def denseRank (scores : List ℚ) (s : ℚ) : ℕ :=
  (scores.dedup.filter (fun v => decide (s < v))).length + 1

/-- `df.apply(lambda row: calculate_weighted_score(row.to_dict()), axis=1)`:
score every row, propagating the first failure. -/
def mapScores : List Row → Except ScoreError (List ℚ)
  | [] => Except.ok []
  | row :: rest =>
      match calculate_weighted_score row with
      | Except.error e => Except.error e
      | Except.ok s =>
          match mapScores rest with
          | Except.error e => Except.error e
          | Except.ok ss => Except.ok (s :: ss)

/-- Set the two derived columns on a row:
`df['business_score'] = ...` then `df['rank'] = ...`. -/
def withScoreCols (row : Row) (score : ℚ) (rank : ℕ) : Row :=
  setCol (setCol row "business_score" (PyVal.num score)) "rank" (PyVal.num (rank : ℚ))

/-- Rows with both derived columns attached, paired with their rank
(the sort key of the final `sort_values('rank')`). -/
def rankedRows (dataframe : List Row) (scores : List ℚ) : List (Row × ℕ) :=
  (dataframe.zip scores).map
    (fun p => (withScoreCols p.1 p.2 (denseRank scores p.2), denseRank scores p.2))

instance : DecidableRel (fun (p q : Row × ℕ) => p.2 ≤ q.2) :=
  fun p q => Nat.decLe p.2 q.2

/-- `evaluate_tools` from the source: copy the frame, add the
`business_score` column, add the dense `rank` column, return the frame
sorted by `rank` ascending. -/
def evaluate_tools (dataframe : List Row) : Except ScoreError (List Row) :=
  match mapScores dataframe with
  | Except.error e => Except.error e
  | Except.ok scores =>
      Except.ok
        (((rankedRows dataframe scores).insertionSort
            (fun p q => p.2 ≤ q.2)).map Prod.fst)

/-- The distinct score values in descending order (the reference order of
dense ranking: position 0 is the highest distinct score). -/
def sortDesc (l : List ℚ) : List ℚ := l.insertionSort (fun a b => b ≤ a)

instance : DecidableRel (fun (a b : ℚ) => b ≤ a) :=
  fun a b => inferInstanceAs (Decidable (b ≤ a))

instance : IsTotal ℚ (fun a b => b ≤ a) := ⟨fun a b => le_total b a⟩

instance : IsTrans ℚ (fun a b => b ≤ a) :=
  ⟨fun _ _ _ h1 h2 => le_trans h2 h1⟩

/-- Embed a purely numeric ratings mapping as a row. -/
def toRow (ratings : List (String × ℚ)) : Row :=
  ratings.map (fun p => (p.1, PyVal.num p.2))

/-- The weighted sum in the spec's words: over every criterion of the
weight table, the rating times the weight when the criterion is present
in the ratings, zero when absent. -/
def specWeightedSum (weights : List (String × ℚ))
    (ratings : List (String × ℚ)) : ℚ :=
  (weights.map (fun cw =>
    match lookupKey cw.1 ratings with
    | some r => r * cw.2
    | none => 0)).sum

/-- The contribution of one weight-table entry for a general row. -/
def ratingTerm (ts : Row) (cw : String × ℚ) : ℚ :=
  match lookupKey cw.1 ts with
  | some (PyVal.num r) => r * cw.2
  | _ => 0

/-- The `business_score` cell of a row, when present and numeric. -/
def scoreOf (row : Row) : Option ℚ :=
  match lookupKey "business_score" row with
  | some (PyVal.num q) => some q
  | _ => none

/-- The `rank` cell of a row, when present and numeric. -/
def rankOf (row : Row) : Option ℚ :=
  match lookupKey "rank" row with
  | some (PyVal.num q) => some q
  | _ => none

/-- A sample tool record: a name plus the same rating on all six criteria
(so its business score equals that rating). -/
def exToolRow (name : String) (v : ℚ) : Row :=
  [("tool_name", PyVal.str name),
   ("ease_of_use", PyVal.num v),
   ("integration_readiness", PyVal.num v),
   ("cost_efficiency", PyVal.num v),
   ("scalability", PyVal.num v),
   ("paperwork_automation", PyVal.num v),
   ("real_time_visibility", PyVal.num v)]

/-- Sample frame whose business scores come out as `[5, 5, 3, 3, 1]`. -/
def exampleDf : List Row :=
  [exToolRow "alpha" 5, exToolRow "beta" 5, exToolRow "gamma" 3,
   exToolRow "delta" 3, exToolRow "epsilon" 1]

/-- The ranked output on `exampleDf`: ranks `[1, 1, 2, 2, 3]`, input order
kept on ties. -/
def exampleOut : List Row :=
  [exToolRow "alpha" 5 ++ [("business_score", PyVal.num 5), ("rank", PyVal.num 1)],
   exToolRow "beta" 5 ++ [("business_score", PyVal.num 5), ("rank", PyVal.num 1)],
   exToolRow "gamma" 3 ++ [("business_score", PyVal.num 3), ("rank", PyVal.num 2)],
   exToolRow "delta" 3 ++ [("business_score", PyVal.num 3), ("rank", PyVal.num 2)],
   exToolRow "epsilon" 1 ++ [("business_score", PyVal.num 1), ("rank", PyVal.num 3)]]

instance {ε α : Type} [DecidableEq ε] [DecidableEq α] : DecidableEq (Except ε α) :=
  fun x y =>
    match x, y with
    | Except.ok a, Except.ok b =>
        if h : a = b then isTrue (by rw [h])
        else isFalse (fun hh => by cases hh; exact h rfl)
    | Except.ok _, Except.error _ => isFalse (fun hh => by cases hh)
    | Except.error _, Except.ok _ => isFalse (fun hh => by cases hh)
    | Except.error e, Except.error f =>
        if h : e = f then isTrue (by rw [h])
        else isFalse (fun hh => by cases hh; exact h rfl)

/-! ### Basic lookup and column-assignment lemmas -/

theorem lookupKey_toRow (ratings : List (String × ℚ)) (k : String) :
    lookupKey k (toRow ratings) = (lookupKey k ratings).map PyVal.num := by
  induction ratings with
  | nil => rfl
  | cons p rest ih =>
      simp only [toRow, List.map, lookupKey] at *
      by_cases h : p.1 = k <;> simp [h, ih]

theorem mem_of_lookupKey {l : List (String × α)} {k : String} {v : α}
    (h : lookupKey k l = some v) : (k, v) ∈ l := by
  induction l with
  | nil => simp [lookupKey] at h
  | cons p rest ih =>
      obtain ⟨k2, v2⟩ := p
      simp only [lookupKey] at h
      by_cases hk : k2 = k
      · simp [hk] at h
        simp [hk, h]
      · simp [hk] at h
        exact List.mem_cons_of_mem _ (ih h)

theorem lookupKey_setCol_self (row : Row) (k : String) (v : PyVal) :
    lookupKey k (setCol row k v) = some v := by
  induction row with
  | nil => simp [setCol, lookupKey]
  | cons p rest ih =>
      obtain ⟨k2, v2⟩ := p
      by_cases hk : k2 = k
      · simp [setCol, hk, lookupKey]
      · simp [setCol, hk, lookupKey, ih]

theorem lookupKey_setCol_ne (row : Row) {k k2 : String} (v : PyVal)
    (h : k ≠ k2) : lookupKey k (setCol row k2 v) = lookupKey k row := by
  induction row with
  | nil => simp [setCol, lookupKey, Ne.symm h]
  | cons p rest ih =>
      obtain ⟨k3, v3⟩ := p
      by_cases hk : k3 = k2
      · simp [setCol, hk, lookupKey, Ne.symm h]
      · simp [setCol, hk, lookupKey, ih]

theorem setCol_of_lookup_none (row : Row) (k : String) (v : PyVal)
    (h : lookupKey k row = none) : setCol row k v = row ++ [(k, v)] := by
  induction row with
  | nil => rfl
  | cons p rest ih =>
      obtain ⟨k2, v2⟩ := p
      simp only [lookupKey] at h
      by_cases hk : k2 = k
      · simp [hk] at h
      · simp [setCol, hk] at *
        exact ih h

/-! ### Rounding lemmas -/

theorem ratFloor_eq_intFloor (q : ℚ) : Rat.floor q = ⌊q⌋ := by
  rw [Rat.floor_def', Rat.floor_def]

theorem le_roundHalfEven (q : ℚ) : ⌊q⌋ ≤ roundHalfEven q := by
  unfold roundHalfEven
  rw [ratFloor_eq_intFloor]
  split_ifs <;> omega

theorem roundHalfEven_le (q : ℚ) : roundHalfEven q ≤ ⌊q⌋ + 1 := by
  unfold roundHalfEven
  rw [ratFloor_eq_intFloor]
  split_ifs <;> omega

theorem roundHalfEven_mono {q q2 : ℚ} (h : q ≤ q2) :
    roundHalfEven q ≤ roundHalfEven q2 := by
  rcases lt_or_eq_of_le (Int.floor_le_floor h) with hf | hf
  · calc roundHalfEven q ≤ ⌊q⌋ + 1 := roundHalfEven_le q
      _ ≤ ⌊q2⌋ := by omega
      _ ≤ roundHalfEven q2 := le_roundHalfEven q2
  · unfold roundHalfEven
    rw [ratFloor_eq_intFloor, ratFloor_eq_intFloor, hf]
    split_ifs <;> first | omega | (exfalso; linarith)

theorem round2_mono {q q2 : ℚ} (h : q ≤ q2) : round2 q ≤ round2 q2 := by
  have h1 : (100:ℚ) * q ≤ 100 * q2 := by linarith
  have h2 := roundHalfEven_mono h1
  have h3 : ((roundHalfEven (100 * q) : ℤ) : ℚ) ≤ ((roundHalfEven (100 * q2) : ℤ) : ℚ) := by
    exact_mod_cast h2
  unfold round2
  linarith

theorem round2_zero : round2 0 = 0 := by
  simp [round2, roundHalfEven, Rat.floor]

theorem round2_nonneg {q : ℚ} (h : 0 ≤ q) : 0 ≤ round2 q := by
  have := round2_mono h
  rwa [round2_zero] at this

/-! ### Scorer lemmas -/

theorem specWeightedSum_nil (ratings : List (String × ℚ)) :
    specWeightedSum [] ratings = 0 := rfl

theorem specWeightedSum_cons (cw : String × ℚ) (rest ratings : List (String × ℚ)) :
    specWeightedSum (cw :: rest) ratings
      = (match lookupKey cw.1 ratings with
         | some r => r * cw.2
         | none => 0) + specWeightedSum rest ratings := by
  simp [specWeightedSum]

/-- The loop of the scorer on an all-numeric row computes the weighted sum. -/
theorem accumWeighted_toRow (weights ratings : List (String × ℚ)) :
    ∀ acc : ℚ, accumWeighted weights (toRow ratings) acc
      = Except.ok (acc + specWeightedSum weights ratings) := by
  induction weights with
  | nil => intro acc; simp [accumWeighted, specWeightedSum_nil]
  | cons cw rest ih =>
      intro acc
      obtain ⟨c, w⟩ := cw
      rw [specWeightedSum_cons]
      cases h : lookupKey c ratings with
      | none => simp [accumWeighted, lookupKey_toRow, h, ih]
      | some r => simp [accumWeighted, lookupKey_toRow, h, ih, add_assoc]

/-- When the loop succeeds on a general row, its value is the weighted sum of
the numeric ratings it saw. -/
theorem accumWeighted_ok (weights : List (String × ℚ)) (ts : Row) :
    ∀ acc q, accumWeighted weights ts acc = Except.ok q →
      q = acc + (weights.map (ratingTerm ts)).sum := by
  induction weights with
  | nil =>
      intro acc q h
      simp only [accumWeighted, Except.ok.injEq] at h
      simp [← h]
  | cons cw rest ih =>
      intro acc q h
      obtain ⟨c, w⟩ := cw
      simp only [accumWeighted] at h
      simp only [List.map_cons, List.sum_cons]
      cases hl : lookupKey c ts with
      | none =>
          rw [hl] at h
          have := ih acc q h
          simp [ratingTerm, hl, this]
      | some v =>
          cases v with
          | num r =>
              rw [hl] at h
              have := ih (acc + r * w) q h
              simp [ratingTerm, hl, this]
              ring
          | str s => rw [hl] at h; simp at h

/-- The loop fails exactly when some criterion of the weight table has a
non-numeric rating in the row; the starting accumulator is irrelevant. -/
theorem accumWeighted_error_iff (weights : List (String × ℚ)) (ts : Row) :
    ∀ acc, (∃ e, accumWeighted weights ts acc = Except.error e) ↔
      ∃ c w s, (c, w) ∈ weights ∧ lookupKey c ts = some (PyVal.str s) := by
  induction weights with
  | nil => intro acc; simp [accumWeighted]
  | cons cw rest ih =>
      intro acc
      obtain ⟨c, w⟩ := cw
      simp only [accumWeighted]
      cases hl : lookupKey c ts with
      | none =>
          rw [ih]
          constructor
          · rintro ⟨c2, w2, s, hm, hk⟩
            exact ⟨c2, w2, s, List.mem_cons_of_mem _ hm, hk⟩
          · rintro ⟨c2, w2, s, hm, hk⟩
            rcases List.mem_cons.mp hm with hh | hh
            · rw [Prod.mk.injEq] at hh
              rw [hh.1] at hk
              rw [hk] at hl
              cases hl
            · exact ⟨c2, w2, s, hh, hk⟩
      | some v =>
          cases v with
          | num r =>
              rw [ih]
              constructor
              · rintro ⟨c2, w2, s, hm, hk⟩
                exact ⟨c2, w2, s, List.mem_cons_of_mem _ hm, hk⟩
              · rintro ⟨c2, w2, s, hm, hk⟩
                rcases List.mem_cons.mp hm with hh | hh
                · rw [Prod.mk.injEq] at hh
                  rw [hh.1] at hk
                  rw [hk] at hl
                  cases hl
                · exact ⟨c2, w2, s, hh, hk⟩
          | str s =>
              constructor
              · intro _
                exact ⟨c, w, s, List.mem_cons_self _ _, hl⟩
              · intro _
                exact ⟨ScoreError.invalidRating c, rfl⟩

/-- The criterion reported by a failure is a recognized criterion whose
rating is non-numeric. -/
theorem accumWeighted_error_val (weights : List (String × ℚ)) (ts : Row) :
    ∀ acc c, accumWeighted weights ts acc = Except.error (ScoreError.invalidRating c) →
      ∃ w s, (c, w) ∈ weights ∧ lookupKey c ts = some (PyVal.str s) := by
  induction weights with
  | nil => intro acc c h; simp [accumWeighted] at h
  | cons cw rest ih =>
      intro acc c h
      obtain ⟨c2, w2⟩ := cw
      simp only [accumWeighted] at h
      cases hl : lookupKey c2 ts with
      | none =>
          rw [hl] at h
          obtain ⟨w, s, hm, hk⟩ := ih acc c h
          exact ⟨w, s, List.mem_cons_of_mem _ hm, hk⟩
      | some v =>
          cases v with
          | num r =>
              rw [hl] at h
              obtain ⟨w, s, hm, hk⟩ := ih (acc + r * w2) c h
              exact ⟨w, s, List.mem_cons_of_mem _ hm, hk⟩
          | str s =>
              rw [hl] at h
              simp only [Except.error.injEq, ScoreError.invalidRating.injEq] at h
              rw [← h]
              exact ⟨w2, s, List.mem_cons_self _ _, hl⟩

/-- The loop only reads the row through lookups of the weight-table keys. -/
theorem accumWeighted_congr (weights : List (String × ℚ)) (ts1 ts2 : Row)
    (h : ∀ cw ∈ weights, lookupKey cw.1 ts1 = lookupKey cw.1 ts2) :
    ∀ acc, accumWeighted weights ts1 acc = accumWeighted weights ts2 acc := by
  induction weights with
  | nil => intro acc; rfl
  | cons cw rest ih =>
      intro acc
      obtain ⟨c, w⟩ := cw
      simp only [accumWeighted]
      rw [← h (c, w) (List.mem_cons_self _ _)]
      cases hl : lookupKey c ts1 with
      | none => exact ih (fun cw2 hm => h cw2 (List.mem_cons_of_mem _ hm)) acc
      | some v =>
          cases v with
          | num r => exact ih (fun cw2 hm => h cw2 (List.mem_cons_of_mem _ hm)) _
          | str s => rfl

/-- A weight-table entry whose criterion is absent from the row is skipped:
it contributes nothing to the loop. -/
theorem accumWeighted_skip (weights1 weights2 : List (String × ℚ))
    (c : String) (w : ℚ) (ts : Row) (h : lookupKey c ts = none) :
    ∀ acc, accumWeighted (weights1 ++ (c, w) :: weights2) ts acc
      = accumWeighted (weights1 ++ weights2) ts acc := by
  induction weights1 with
  | nil => intro acc; simp [accumWeighted, h]
  | cons cw rest ih =>
      intro acc
      obtain ⟨c2, w2⟩ := cw
      simp only [List.cons_append, accumWeighted]
      cases hl : lookupKey c2 ts with
      | none => exact ih acc
      | some v =>
          cases v with
          | num r => exact ih _
          | str s => rfl

/-- Monotone accumulation: raising one numeric rating, with all weights
non-negative and every other lookup unchanged, cannot lower the total. -/
theorem accumWeighted_mono (weights : List (String × ℚ))
    (hw : ∀ cw ∈ weights, 0 ≤ cw.2) (ts1 ts2 : Row) (c : String) (v v2 : ℚ)
    (h1 : lookupKey c ts1 = some (PyVal.num v))
    (h2 : lookupKey c ts2 = some (PyVal.num v2)) (hv : v ≤ v2)
    (hagree : ∀ k, k ≠ c → lookupKey k ts1 = lookupKey k ts2) :
    ∀ acc1 acc2 q1 q2, acc1 ≤ acc2 →
      accumWeighted weights ts1 acc1 = Except.ok q1 →
      accumWeighted weights ts2 acc2 = Except.ok q2 → q1 ≤ q2 := by
  induction weights with
  | nil =>
      intro acc1 acc2 q1 q2 hacc e1 e2
      simp [accumWeighted] at e1 e2
      rw [← e1, ← e2]
      exact hacc
  | cons cw rest ih =>
      intro acc1 acc2 q1 q2 hacc e1 e2
      obtain ⟨k, w⟩ := cw
      have hw0 : 0 ≤ w := hw (k, w) (List.mem_cons_self _ _)
      have hwrest : ∀ cw2 ∈ rest, 0 ≤ cw2.2 :=
        fun cw2 hm => hw cw2 (List.mem_cons_of_mem _ hm)
      simp only [accumWeighted] at e1 e2
      by_cases hk : k = c
      · rw [hk, h1] at e1
        rw [hk, h2] at e2
        refine ih hwrest _ _ _ _ ?_ e1 e2
        have : v * w ≤ v2 * w := mul_le_mul_of_nonneg_right hv hw0
        linarith
      · rw [hagree k hk] at e1
        cases hl : lookupKey k ts2 with
        | none =>
            rw [hl] at e1 e2
            exact ih hwrest _ _ _ _ hacc e1 e2
        | some val =>
            cases val with
            | num r =>
                rw [hl] at e1 e2
                refine ih hwrest _ _ _ _ ?_ e1 e2
                linarith
            | str s =>
                rw [hl] at e1
                cases e1

/-- All the fixed stakeholder weights are non-negative. -/
theorem criteria_weights_nonneg : ∀ cw ∈ CRITERIA_WEIGHTS, 0 ≤ cw.2 := by
  intro cw hm
  simp only [CRITERIA_WEIGHTS, List.mem_cons, List.not_mem_nil, or_false] at hm
  rcases hm with h | h | h | h | h | h <;> rw [h] <;> norm_num

/-! ### Ranker lemmas -/

theorem mapScores_length : ∀ (df : List Row) (scores : List ℚ),
    mapScores df = Except.ok scores → scores.length = df.length := by
  intro df
  induction df with
  | nil => intro scores h; simp [mapScores] at h; simp [← h]
  | cons row rest ih =>
      intro scores h
      simp only [mapScores] at h
      cases h1 : calculate_weighted_score row with
      | error e => rw [h1] at h; cases h
      | ok s =>
          rw [h1] at h
          cases h2 : mapScores rest with
          | error e => rw [h2] at h; cases h
          | ok ss =>
              rw [h2] at h
              simp only [Except.ok.injEq] at h
              rw [← h]
              simp [ih ss h2]

theorem zip_mem_right : ∀ (xs : List α) (ys : List β),
    xs.length = ys.length → ∀ b ∈ ys, ∃ a, (a, b) ∈ xs.zip ys := by
  intro xs
  induction xs with
  | nil =>
      intro ys h b hb
      rw [List.length_nil] at h
      rw [List.eq_nil_of_length_eq_zero h.symm] at hb
      cases hb
  | cons x rest ih =>
      intro ys h b hb
      cases ys with
      | nil => cases hb
      | cons y yrest =>
          rcases List.mem_cons.mp hb with hh | hh
          · exact ⟨x, by simp [List.zip_cons_cons, hh]⟩
          · obtain ⟨a, ha⟩ := ih yrest (by simpa using h) b hh
            exact ⟨a, by simp [List.zip_cons_cons, List.mem_cons, ha]⟩

theorem evaluate_tools_ok_iff (df : List Row) (out : List Row) :
    evaluate_tools df = Except.ok out ↔
      ∃ scores, mapScores df = Except.ok scores ∧
        out = ((rankedRows df scores).insertionSort
          (fun p q => p.2 ≤ q.2)).map Prod.fst := by
  unfold evaluate_tools
  cases h : mapScores df with
  | error e => simp [h]
  | ok scores =>
      simp only [h, Except.ok.injEq]
      constructor
      · intro hh; exact ⟨scores, rfl, hh.symm⟩
      · rintro ⟨s2, hs2, hout⟩
        rw [hout, ← hs2]

/-- Membership in the ranked output: exactly the input rows, enriched with
their score and dense rank. -/
theorem mem_evaluate_out {df out : List Row}
    (h : evaluate_tools df = Except.ok out) :
    ∃ scores, mapScores df = Except.ok scores ∧ scores.length = df.length ∧
      ∀ row, row ∈ out ↔
        ∃ p ∈ df.zip scores, row = withScoreCols p.1 p.2 (denseRank scores p.2) := by
  obtain ⟨scores, hs, hout⟩ := (evaluate_tools_ok_iff df out).mp h
  refine ⟨scores, hs, mapScores_length df scores hs, ?_⟩
  intro row
  rw [hout]
  constructor
  · intro hm
    rw [List.mem_map] at hm
    obtain ⟨pr, hpr, hrow⟩ := hm
    rw [List.Perm.mem_iff (List.perm_insertionSort _ _)] at hpr
    simp only [rankedRows, List.mem_map] at hpr
    obtain ⟨p, hp, hpr2⟩ := hpr
    exact ⟨p, hp, by rw [← hrow, ← hpr2]⟩
  · rintro ⟨p, hp, hrow⟩
    rw [List.mem_map]
    refine ⟨(withScoreCols p.1 p.2 (denseRank scores p.2), denseRank scores p.2), ?_, hrow.symm⟩
    rw [List.Perm.mem_iff (List.perm_insertionSort _ _)]
    simp only [rankedRows, List.mem_map]
    exact ⟨p, hp, rfl⟩

theorem scoreOf_withScoreCols (row : Row) (s : ℚ) (k : ℕ) :
    scoreOf (withScoreCols row s k) = some s := by
  unfold scoreOf withScoreCols
  rw [lookupKey_setCol_ne _ _ (by decide : "business_score" ≠ "rank"),
    lookupKey_setCol_self]

theorem rankOf_withScoreCols (row : Row) (s : ℚ) (k : ℕ) :
    rankOf (withScoreCols row s k) = some ((k : ℕ) : ℚ) := by
  unfold rankOf withScoreCols
  rw [lookupKey_setCol_self]

/-! ### Dense-ranking lemmas -/

theorem length_filter_le_of_imp (l : List ℚ) (p q : ℚ → Bool)
    (h : ∀ v ∈ l, p v = true → q v = true) :
    (l.filter p).length ≤ (l.filter q).length := by
  induction l with
  | nil => simp
  | cons x rest ih =>
      have ihr := ih (fun v hv => h v (List.mem_cons_of_mem _ hv))
      by_cases hp : p x = true
      · have hq := h x (List.mem_cons_self _ _) hp
        simp [List.filter_cons, hp, hq]
        omega
      · by_cases hq : q x = true <;>
          simp [List.filter_cons, hp, hq] <;> omega

theorem length_filter_lt (l : List ℚ) (s1 s2 : ℚ) (hs : s2 < s1)
    (hmem : s1 ∈ l) :
    (l.filter (fun v => decide (s1 < v))).length
      < (l.filter (fun v => decide (s2 < v))).length := by
  induction l with
  | nil => cases hmem
  | cons x rest ih =>
      rcases List.mem_cons.mp hmem with hx | hx
      · have hle := length_filter_le_of_imp rest
          (fun v => decide (s1 < v)) (fun v => decide (s2 < v))
          (fun v _ hv => by
            simp only [decide_eq_true_eq] at *
            exact lt_trans hs hv)
        rw [← hx]
        simp [List.filter_cons, lt_irrefl, hs]
        omega
      · have ihh := ih hx
        by_cases h1 : s1 < x
        · have h2 : s2 < x := lt_trans hs h1
          simp [List.filter_cons, h1, h2]
          omega
        · by_cases h2 : s2 < x <;> simp [List.filter_cons, h1, h2] <;> omega

/-- In a strictly descending list, the entry at position `i` has exactly
`i` entries greater than it. -/
theorem filter_gt_get : ∀ (dd : List ℚ), dd.Pairwise (fun a b => b < a) →
    ∀ i (h : i < dd.length),
      (dd.filter (fun v => decide (dd.get ⟨i, h⟩ < v))).length = i := by
  intro dd
  induction dd with
  | nil => intro _ i h; cases h
  | cons x rest ih =>
      intro hp i h
      have hx : ∀ b ∈ rest, b < x := (List.pairwise_cons.mp hp).1
      have hprest : rest.Pairwise (fun a b => b < a) := (List.pairwise_cons.mp hp).2
      cases i with
      | zero =>
          show (List.filter (fun v => decide (x < v)) (x :: rest)).length = 0
          rw [List.length_eq_zero, List.filter_eq_nil_iff]
          intro v hv
          simp only [decide_eq_true_eq, not_lt]
          rcases List.mem_cons.mp hv with hh | hh
          · exact hh.le
          · exact le_of_lt (hx v hh)
      | succ n =>
          have hn : n < rest.length := Nat.lt_of_succ_lt_succ h
          show (List.filter (fun v => decide (rest.get ⟨n, hn⟩ < v)) (x :: rest)).length = n + 1
          have hgt : rest.get ⟨n, hn⟩ < x := hx _ (rest.get_mem _ _)
          rw [List.filter_cons, if_pos (decide_eq_true hgt), List.length_cons,
            ih hprest n hn]

theorem sortDesc_perm (l : List ℚ) : List.Perm (sortDesc l) l :=
  List.perm_insertionSort _ l

theorem sortDesc_pairwise_gt (l : List ℚ) (hnd : l.Nodup) :
    (sortDesc l).Pairwise (fun a b => b < a) := by
  have hs : (sortDesc l).Sorted (fun a b => b ≤ a) :=
    List.sorted_insertionSort _ l
  have hnd2 : (sortDesc l).Nodup := ((sortDesc_perm l).nodup_iff).mpr hnd
  have hand := List.Pairwise.and hs hnd2
  exact hand.imp (fun h => lt_of_le_of_ne h.1 (Ne.symm h.2))

theorem denseRank_filter (scores dd : List ℚ) (hperm : List.Perm dd scores.dedup)
    (s : ℚ) :
    denseRank scores s = (dd.filter (fun v => decide (s < v))).length + 1 := by
  unfold denseRank
  rw [(hperm.filter _).length_eq]

theorem denseRank_get (scores : List ℚ) (i : ℕ)
    (h : i < (sortDesc scores.dedup).length) :
    denseRank scores ((sortDesc scores.dedup).get ⟨i, h⟩) = i + 1 := by
  rw [denseRank_filter scores (sortDesc scores.dedup) (sortDesc_perm _)]
  rw [filter_gt_get _ (sortDesc_pairwise_gt _ (List.nodup_dedup scores)) i h]

theorem exists_sortDesc_get {scores : List ℚ} {s : ℚ} (hs : s ∈ scores) :
    ∃ i, ∃ h : i < (sortDesc scores.dedup).length,
      (sortDesc scores.dedup).get ⟨i, h⟩ = s := by
  have h1 : s ∈ scores.dedup := List.mem_dedup.mpr hs
  have h2 : s ∈ sortDesc scores.dedup := (sortDesc_perm _).mem_iff.mpr h1
  obtain ⟨⟨i, hi⟩, hget⟩ := List.get_of_mem h2
  exact ⟨i, hi, hget⟩

/-- Ties share a rank and a strictly greater score gets a strictly better
(smaller) rank. -/
theorem denseRank_lt_of_gt (scores : List ℚ) {s1 s2 : ℚ} (h : s2 < s1)
    (hs1 : s1 ∈ scores) :
    denseRank scores s1 < denseRank scores s2 := by
  unfold denseRank
  have := length_filter_lt scores.dedup s1 s2 h (List.mem_dedup.mpr hs1)
  omega

/-- No rank below an attained rank is skipped: every value from 1 up to an
attained dense rank is some score's dense rank. -/
theorem denseRank_attained (scores : List ℚ) (s : ℚ) (hs : s ∈ scores)
    (j : ℕ) (h1 : 1 ≤ j) (h2 : j ≤ denseRank scores s) :
    ∃ s2 ∈ scores, denseRank scores s2 = j := by
  obtain ⟨i, hi, hget⟩ := exists_sortDesc_get hs
  have hr : denseRank scores s = i + 1 := by
    rw [← hget]; exact denseRank_get scores i hi
  have hj : j - 1 < (sortDesc scores.dedup).length := by omega
  refine ⟨(sortDesc scores.dedup).get ⟨j - 1, hj⟩, ?_, ?_⟩
  · have hm := List.get_mem (sortDesc scores.dedup) (j - 1) hj
    exact List.mem_dedup.mp ((sortDesc_perm _).mem_iff.mp hm)
  · rw [denseRank_get scores (j - 1) hj]
    omega

/-! ### Concrete evaluation of the sample frame -/

theorem round2_five : round2 5 = 5 := by
  norm_num [round2, roundHalfEven, Rat.floor]

theorem round2_three : round2 3 = 3 := by
  norm_num [round2, roundHalfEven, Rat.floor]

theorem round2_one : round2 1 = 1 := by
  norm_num [round2, roundHalfEven, Rat.floor]

theorem calculate_exToolRow (name : String) (v : ℚ) :
    calculate_weighted_score (exToolRow name v) = Except.ok (round2 v) := by
  simp [calculate_weighted_score, calculate_weighted_score_with,
    CRITERIA_WEIGHTS, accumWeighted, exToolRow, lookupKey, Except.map]
  ring_nf

theorem mapScores_exampleDf :
    mapScores exampleDf = Except.ok [5, 5, 3, 3, 1] := by
  simp [mapScores, exampleDf, calculate_exToolRow, round2_five, round2_three,
    round2_one]

theorem exampleDf_eval : evaluate_tools exampleDf = Except.ok exampleOut := by
  simp only [evaluate_tools, mapScores_exampleDf]
  decide

/-! ### Auxiliary lemmas for the claims -/

theorem lookupKey_append (k : String) (l1 l2 : List (String × α)) :
    lookupKey k (l1 ++ l2)
      = match lookupKey k l1 with
        | some v => some v
        | none => lookupKey k l2 := by
  induction l1 with
  | nil => simp [lookupKey]
  | cons p rest ih =>
      obtain ⟨k2, v2⟩ := p
      by_cases hk : k2 = k <;> simp [lookupKey, hk, ih]

theorem lookupKey_append_middle (ts1 ts2 : List (String × α)) (c k : String)
    (v : α) (h : k ≠ c) :
    lookupKey k (ts1 ++ (c, v) :: ts2) = lookupKey k (ts1 ++ ts2) := by
  induction ts1 with
  | nil => simp [lookupKey, Ne.symm h]
  | cons p rest ih =>
      obtain ⟨k2, v2⟩ := p
      by_cases hk : k2 = k <;> simp [lookupKey, hk, ih]

theorem withScoreCols_append (row : Row) (s : ℚ) (k : ℕ)
    (h1 : lookupKey "business_score" row = none)
    (h2 : lookupKey "rank" row = none) :
    withScoreCols row s k
      = row ++ [("business_score", PyVal.num s),
                ("rank", PyVal.num ((k : ℕ) : ℚ))] := by
  unfold withScoreCols
  have h3 : lookupKey "rank" (row ++ [("business_score", PyVal.num s)]) = none := by
    rw [lookupKey_append, h2]
    simp [lookupKey]
  rw [setCol_of_lookup_none _ _ _ h1, setCol_of_lookup_none _ _ _ h3,
    List.append_assoc]
  rfl

theorem specWeightedSum_nonneg (weights ratings : List (String × ℚ))
    (hw : ∀ cw ∈ weights, 0 ≤ cw.2) (hr : ∀ p ∈ ratings, 0 ≤ p.2) :
    0 ≤ specWeightedSum weights ratings := by
  induction weights with
  | nil => rw [specWeightedSum_nil]
  | cons cw rest ih =>
      rw [specWeightedSum_cons]
      have h1 : 0 ≤ specWeightedSum rest ratings :=
        ih (fun cw2 hm => hw cw2 (List.mem_cons_of_mem _ hm))
      have h2 : (0:ℚ) ≤ match lookupKey cw.1 ratings with
          | some r => r * cw.2
          | none => 0 := by
        cases hl : lookupKey cw.1 ratings with
        | none => simp
        | some r =>
            have hrr : 0 ≤ r := hr (cw.1, r) (mem_of_lookupKey hl)
            exact mul_nonneg hrr (hw cw (List.mem_cons_self _ _))
      linarith

theorem accumWeighted_all_none (weights : List (String × ℚ)) (ts : Row)
    (h : ∀ cw ∈ weights, lookupKey cw.1 ts = none) :
    ∀ acc, accumWeighted weights ts acc = Except.ok acc := by
  induction weights with
  | nil => intro acc; rfl
  | cons cw rest ih =>
      intro acc
      obtain ⟨c, w⟩ := cw
      simp only [accumWeighted]
      rw [h (c, w) (List.mem_cons_self _ _)]
      exact ih (fun cw2 hm => h cw2 (List.mem_cons_of_mem _ hm)) acc

/-! ### The claims -/

/-- Claim C1: for every weights mapping and every (numeric) ratings mapping,
the scorer returns the sum over the criteria present in both mappings of
`rating * weight`, rounded to two decimal places; in particular, for weights
`a ↦ 0.5, b ↦ 0.5` and ratings `a ↦ 4, b ↦ 2` it returns `3.0`. -/
theorem c1_weighted_sum_correct :
    (∀ (weights ratings : List (String × ℚ)),
      calculate_weighted_score_with weights (toRow ratings)
        = Except.ok (round2 (specWeightedSum weights ratings)))
    ∧ calculate_weighted_score_with [("a", 1/2), ("b", 1/2)]
        (toRow [("a", 4), ("b", 2)]) = Except.ok 3 := by
  constructor
  · intro weights ratings
    unfold calculate_weighted_score_with
    rw [accumWeighted_toRow]
    simp [Except.map]
  · simp [calculate_weighted_score_with, accumWeighted, lookupKey, toRow,
      Except.map, round2, roundHalfEven, Rat.floor]
    norm_num

/-- Claim C4: the scorer never fails on account of which criteria are
present.  A weight-table entry whose criterion is absent from the ratings
is silently skipped (contributes zero); a ratings entry whose criterion is
not in the weight table contributes nothing and raises no error; on any
all-numeric ratings mapping the scorer succeeds; and the two concrete
examples of the spec hold. -/
theorem c4_missing_and_extra_tolerance :
    (∀ (weights1 weights2 : List (String × ℚ)) (c : String) (w : ℚ) (ts : Row),
      lookupKey c ts = none →
        calculate_weighted_score_with (weights1 ++ (c, w) :: weights2) ts
          = calculate_weighted_score_with (weights1 ++ weights2) ts)
    ∧ (∀ (weights : List (String × ℚ)) (ts1 ts2 : Row) (c : String) (v : PyVal),
        (∀ w, (c, w) ∉ weights) →
          calculate_weighted_score_with weights (ts1 ++ (c, v) :: ts2)
            = calculate_weighted_score_with weights (ts1 ++ ts2))
    ∧ (∀ (weights ratings : List (String × ℚ)), ∃ q,
        calculate_weighted_score_with weights (toRow ratings) = Except.ok q)
    ∧ calculate_weighted_score_with [("a", 1/2), ("b", 1/2)]
        (toRow [("a", 4)]) = Except.ok 2
    ∧ calculate_weighted_score_with [("a", 1)]
        (toRow [("a", 5), ("z", 100)]) = Except.ok 5 := by
  refine ⟨?_, ?_, ?_, ?_, ?_⟩
  · intro weights1 weights2 c w ts h
    unfold calculate_weighted_score_with
    rw [accumWeighted_skip _ _ _ _ _ h]
  · intro weights ts1 ts2 c v h
    unfold calculate_weighted_score_with
    rw [accumWeighted_congr weights _ _ ?_]
    intro cw hm
    have hne : cw.1 ≠ c := by
      intro he
      exact h cw.2 (by rw [← he]; exact hm)
    exact lookupKey_append_middle ts1 ts2 c cw.1 v hne
  · intro weights ratings
    unfold calculate_weighted_score_with
    rw [accumWeighted_toRow]
    exact ⟨_, rfl⟩
  · simp [calculate_weighted_score_with, accumWeighted, lookupKey, toRow,
      Except.map, round2, roundHalfEven, Rat.floor]
    norm_num
  · simp [calculate_weighted_score_with, accumWeighted, lookupKey, toRow,
      Except.map, round2, roundHalfEven, Rat.floor]
    norm_num

theorem c4_witness :
    calculate_weighted_score_with ([("x", 2)] ++ ("c", 9) :: [("y", 3)])
        (toRow [("x", 1), ("y", 1)])
      = calculate_weighted_score_with ([("x", 2)] ++ [("y", 3)])
          (toRow [("x", 1), ("y", 1)])
    ∧ calculate_weighted_score_with [("x", 2)]
        (([("x", PyVal.num 1)] : Row) ++ ("z", PyVal.num 7) :: ([] : Row))
      = calculate_weighted_score_with [("x", 2)]
          (([("x", PyVal.num 1)] : Row) ++ ([] : Row))
    ∧ ∃ q, calculate_weighted_score_with [("a", 1/2)] (toRow [("b", 3)])
        = Except.ok q :=
  ⟨c4_missing_and_extra_tolerance.1 [("x", 2)] [("y", 3)] "c" 9
      (toRow [("x", 1), ("y", 1)]) (by decide),
   c4_missing_and_extra_tolerance.2.1 [("x", 2)] [("x", PyVal.num 1)] [] "z"
      (PyVal.num 7) (by intro w hw; simp at hw),
   c4_missing_and_extra_tolerance.2.2.1 [("a", 1/2)] [("b", 3)]⟩

/-- Claim C5: the scorer fails exactly when some criterion recognized by the
weight table has a non-numeric rating; the failure is an
`InvalidRatingError` naming such a criterion; and on every input whose
recognized-criterion ratings are all numeric the scorer succeeds. -/
theorem c5_invalid_rating_error (weights : List (String × ℚ)) (ts : Row) :
    ((∃ e, calculate_weighted_score_with weights ts = Except.error e) ↔
      ∃ c w s, (c, w) ∈ weights ∧ lookupKey c ts = some (PyVal.str s))
    ∧ (∀ c, calculate_weighted_score_with weights ts
          = Except.error (ScoreError.invalidRating c) →
        ∃ w s, (c, w) ∈ weights ∧ lookupKey c ts = some (PyVal.str s))
    ∧ ((∀ c w, (c, w) ∈ weights → ∀ s, lookupKey c ts ≠ some (PyVal.str s)) →
        ∃ q, calculate_weighted_score_with weights ts = Except.ok q) := by
  refine ⟨⟨?_, ?_⟩, ?_, ?_⟩
  · rintro ⟨e, he⟩
    refine (accumWeighted_error_iff weights ts 0).mp ⟨e, ?_⟩
    unfold calculate_weighted_score_with at he
    cases h : accumWeighted weights ts 0 with
    | error e2 => rw [h] at he; simpa [Except.map] using he
    | ok q => rw [h] at he; simp [Except.map] at he
  · intro hex
    obtain ⟨e, he⟩ := (accumWeighted_error_iff weights ts 0).mpr hex
    refine ⟨e, ?_⟩
    unfold calculate_weighted_score_with
    rw [he]
    rfl
  · intro c hc
    unfold calculate_weighted_score_with at hc
    cases h : accumWeighted weights ts 0 with
    | error e2 =>
        rw [h] at hc
        simp only [Except.map, Except.error.injEq] at hc
        rw [hc] at h
        exact accumWeighted_error_val weights ts 0 c h
    | ok q => rw [h] at hc; simp [Except.map] at hc
  · intro hnum
    cases h : accumWeighted weights ts 0 with
    | ok q =>
        refine ⟨round2 q, ?_⟩
        unfold calculate_weighted_score_with
        rw [h]
        rfl
    | error e =>
        obtain ⟨c, w, s, hm, hl⟩ :=
          (accumWeighted_error_iff weights ts 0).mp ⟨e, h⟩
        exact absurd hl (hnum c w hm s)

theorem c5_witness :
    ∃ w s, ("ease_of_use", w) ∈ CRITERIA_WEIGHTS ∧
      lookupKey "ease_of_use" ([("ease_of_use", PyVal.str "bad")] : Row)
        = some (PyVal.str s) :=
  (c5_invalid_rating_error CRITERIA_WEIGHTS
      ([("ease_of_use", PyVal.str "bad")] : Row)).2.1 "ease_of_use" (by decide)

/-- Claim C6: evaluating an empty frame returns an empty frame and raises
no error. -/
theorem c6_empty_input : evaluate_tools [] = Except.ok [] := rfl

/-- Claim C9: evaluation is deterministic — two runs on the same frame give
the same result (same scores, ranks and order); the model is a pure
function of the frame, mirroring the absence of mutable state in the
source (the weight table is a constant). -/
theorem c9_deterministic (df : List Row)
    (out1 out2 : Except ScoreError (List Row))
    (h1 : evaluate_tools df = out1) (h2 : evaluate_tools df = out2) :
    out1 = out2 := by
  rw [← h1, ← h2]

theorem c9_witness : (Except.ok exampleOut : Except ScoreError (List Row))
    = Except.ok exampleOut :=
  c9_deterministic exampleDf _ _ exampleDf_eval exampleDf_eval

/-- Claim C10: with the fixed non-negative weight table and monotone
rounding, the score is monotone in each rating; all-non-negative ratings
score at least `0`; and a row containing none of the recognized criteria
scores exactly `0`. -/
theorem c10_monotone :
    (∀ (ts1 ts2 : Row) (c : String) (v v2 : ℚ),
      lookupKey c ts1 = some (PyVal.num v) →
      lookupKey c ts2 = some (PyVal.num v2) → v ≤ v2 →
      (∀ k, k ≠ c → lookupKey k ts1 = lookupKey k ts2) →
      ∀ q1 q2, calculate_weighted_score ts1 = Except.ok q1 →
        calculate_weighted_score ts2 = Except.ok q2 → q1 ≤ q2)
    ∧ (∀ ratings : List (String × ℚ), (∀ p ∈ ratings, 0 ≤ p.2) →
        ∀ q, calculate_weighted_score (toRow ratings) = Except.ok q → 0 ≤ q)
    ∧ (∀ ts : Row, (∀ cw ∈ CRITERIA_WEIGHTS, lookupKey cw.1 ts = none) →
        calculate_weighted_score ts = Except.ok 0) := by
  refine ⟨?_, ?_, ?_⟩
  · intro ts1 ts2 c v v2 h1 h2 hv hagree q1 q2 e1 e2
    unfold calculate_weighted_score calculate_weighted_score_with at e1 e2
    cases ha1 : accumWeighted CRITERIA_WEIGHTS ts1 0 with
    | error e => rw [ha1] at e1; simp [Except.map] at e1
    | ok p1 =>
        cases ha2 : accumWeighted CRITERIA_WEIGHTS ts2 0 with
        | error e => rw [ha2] at e2; simp [Except.map] at e2
        | ok p2 =>
            rw [ha1] at e1
            rw [ha2] at e2
            simp only [Except.map, Except.ok.injEq] at e1 e2
            rw [← e1, ← e2]
            exact round2_mono (accumWeighted_mono CRITERIA_WEIGHTS
              criteria_weights_nonneg ts1 ts2 c v v2 h1 h2 hv hagree
              0 0 p1 p2 le_rfl ha1 ha2)
  · intro ratings hr q hq
    unfold calculate_weighted_score calculate_weighted_score_with at hq
    rw [accumWeighted_toRow] at hq
    simp only [Except.map, Except.ok.injEq] at hq
    rw [← hq]
    refine round2_nonneg ?_
    have := specWeightedSum_nonneg CRITERIA_WEIGHTS ratings
      criteria_weights_nonneg hr
    linarith
  · intro ts hnone
    unfold calculate_weighted_score calculate_weighted_score_with
    rw [accumWeighted_all_none CRITERIA_WEIGHTS ts hnone 0]
    simp [Except.map, round2_zero]

theorem score_one_eou :
    calculate_weighted_score (toRow [("ease_of_use", 1)]) = Except.ok (1/5) := by
  simp [calculate_weighted_score, calculate_weighted_score_with,
    CRITERIA_WEIGHTS, accumWeighted, lookupKey, toRow, Except.map, round2,
    roundHalfEven, Rat.floor]
  norm_num

theorem score_two_eou :
    calculate_weighted_score (toRow [("ease_of_use", 2)]) = Except.ok (2/5) := by
  simp [calculate_weighted_score, calculate_weighted_score_with,
    CRITERIA_WEIGHTS, accumWeighted, lookupKey, toRow, Except.map, round2,
    roundHalfEven, Rat.floor]
  norm_num

theorem score_two_cost :
    calculate_weighted_score (toRow [("cost_efficiency", 2)])
      = Except.ok (3/10) := by
  simp [calculate_weighted_score, calculate_weighted_score_with,
    CRITERIA_WEIGHTS, accumWeighted, lookupKey, toRow, Except.map, round2,
    roundHalfEven, Rat.floor]
  norm_num

theorem c10_witness :
    ((1:ℚ)/5 ≤ 2/5) ∧ ((0:ℚ) ≤ 3/10)
    ∧ calculate_weighted_score ([("foo", PyVal.num 7)] : Row) = Except.ok 0 :=
  ⟨c10_monotone.1 (toRow [("ease_of_use", 1)]) (toRow [("ease_of_use", 2)])
      "ease_of_use" 1 2 (by decide) (by decide) (by norm_num)
      (by
        intro k hk
        simp [toRow, lookupKey, Ne.symm hk])
      (1/5) (2/5) score_one_eou score_two_eou,
   c10_monotone.2.1 [("cost_efficiency", 2)]
      (by intro p hp; simp at hp; rw [hp]; norm_num)
      (3/10) score_two_cost,
   c10_monotone.2.2 ([("foo", PyVal.num 7)] : Row) (by decide)⟩

/-- Claim C2: in the ranked output every record carries a numeric rank that
is the dense ranking of its business score in descending order: records
sharing a score share a rank, a strictly higher score gets a strictly
smaller rank, every rank is at least 1, and no rank value below an
attained rank is skipped; the sample scores `[5, 5, 3, 3, 1]` receive
ranks `[1, 1, 2, 2, 3]` in that order. -/
theorem c2_dense_ranking :
    (∀ (df out : List Row), evaluate_tools df = Except.ok out →
      (∀ r ∈ out, ∃ (s : ℚ) (k : ℕ), scoreOf r = some s
        ∧ rankOf r = some ((k : ℕ) : ℚ) ∧ 1 ≤ k)
      ∧ (∀ r1 ∈ out, ∀ r2 ∈ out, ∀ s1 k1 s2 k2 : ℚ,
          scoreOf r1 = some s1 → rankOf r1 = some k1 →
          scoreOf r2 = some s2 → rankOf r2 = some k2 →
          (s1 = s2 → k1 = k2) ∧ (s2 < s1 → k1 < k2))
      ∧ (∀ r ∈ out, ∀ k : ℚ, rankOf r = some k →
          ∀ j : ℕ, 1 ≤ j → (j : ℚ) ≤ k →
            ∃ r2 ∈ out, rankOf r2 = some ((j : ℕ) : ℚ)))
    ∧ evaluate_tools exampleDf = Except.ok exampleOut
    ∧ exampleOut.map scoreOf = [some 5, some 5, some 3, some 3, some 1]
    ∧ exampleOut.map rankOf = [some 1, some 1, some 2, some 2, some 3] := by
  refine ⟨?_, exampleDf_eval, by decide, by decide⟩
  intro df out h
  obtain ⟨scores, hs, hlen, hmem⟩ := mem_evaluate_out h
  have key : ∀ r ∈ out, ∃ s, s ∈ scores ∧ scoreOf r = some s
      ∧ rankOf r = some ((denseRank scores s : ℕ) : ℚ) := by
    intro r hr
    obtain ⟨p, hp, hrow⟩ := (hmem r).mp hr
    refine ⟨p.2, (List.of_mem_zip hp).2, ?_, ?_⟩
    · rw [hrow]; exact scoreOf_withScoreCols _ _ _
    · rw [hrow]; exact rankOf_withScoreCols _ _ _
  refine ⟨?_, ?_, ?_⟩
  · intro r hr
    obtain ⟨s, hsm, hsc, hrk⟩ := key r hr
    exact ⟨s, denseRank scores s, hsc, hrk, by unfold denseRank; omega⟩
  · intro r1 hr1 r2 hr2 s1 k1 s2 k2 hsc1 hrk1 hsc2 hrk2
    obtain ⟨t1, ht1m, ht1sc, ht1rk⟩ := key r1 hr1
    obtain ⟨t2, ht2m, ht2sc, ht2rk⟩ := key r2 hr2
    have hs1 : s1 = t1 := by rw [hsc1] at ht1sc; exact Option.some.inj ht1sc
    have hk1 : k1 = ((denseRank scores t1 : ℕ) : ℚ) := by
      rw [hrk1] at ht1rk; exact Option.some.inj ht1rk
    have hs2 : s2 = t2 := by rw [hsc2] at ht2sc; exact Option.some.inj ht2sc
    have hk2 : k2 = ((denseRank scores t2 : ℕ) : ℚ) := by
      rw [hrk2] at ht2rk; exact Option.some.inj ht2rk
    subst hs1; subst hk1; subst hs2; subst hk2
    constructor
    · intro he; rw [he]
    · intro hlt
      have := denseRank_lt_of_gt scores hlt ht1m
      exact_mod_cast this
  · intro r hr k hrk j hj1 hjk
    obtain ⟨s, hsm, hsc, hrkr⟩ := key r hr
    have hk : k = ((denseRank scores s : ℕ) : ℚ) := by
      rw [hrk] at hrkr; exact Option.some.inj hrkr
    have hjle : j ≤ denseRank scores s := by
      rw [hk] at hjk; exact_mod_cast hjk
    obtain ⟨s2, hs2m, hdr⟩ := denseRank_attained scores s hsm j hj1 hjle
    obtain ⟨a, ha⟩ := zip_mem_right df scores hlen.symm s2 hs2m
    refine ⟨withScoreCols a s2 (denseRank scores s2), ?_, ?_⟩
    · exact (hmem _).mpr ⟨(a, s2), ha, rfl⟩
    · rw [rankOf_withScoreCols, hdr]

theorem c2_witness :
    ((5:ℚ) = 3 → (1:ℚ) = 2) ∧ ((3:ℚ) < 5 → (1:ℚ) < 2) :=
  ((c2_dense_ranking.1 exampleDf exampleOut exampleDf_eval).2.1
    (exToolRow "alpha" 5
      ++ [("business_score", PyVal.num 5), ("rank", PyVal.num 1)])
    (by decide)
    (exToolRow "gamma" 3
      ++ [("business_score", PyVal.num 3), ("rank", PyVal.num 2)])
    (by decide) 5 1 3 2 (by decide) (by decide) (by decide) (by decide))

/-- Claim C7: evaluation never mutates its input (the model is pure and the
source works on `dataframe.copy()`); up to the rank ordering, the output
consists of exactly the input records, each carrying all of its fields
unchanged — `tool_name` included — with exactly the two fields
`business_score` and `rank` appended. -/
theorem c7_frame_preservation :
    ∀ (df out : List Row),
      (∀ row ∈ df, lookupKey "business_score" row = none
        ∧ lookupKey "rank" row = none) →
      evaluate_tools df = Except.ok out →
      ∃ scores, mapScores df = Except.ok scores
        ∧ scores.length = df.length
        ∧ List.Perm out ((df.zip scores).map (fun p =>
            p.1 ++ [("business_score", PyVal.num p.2),
                    ("rank", PyVal.num ((denseRank scores p.2 : ℕ) : ℚ))])) := by
  intro df out hfree heval
  obtain ⟨scores, hs, hout⟩ := (evaluate_tools_ok_iff df out).mp heval
  refine ⟨scores, hs, mapScores_length df scores hs, ?_⟩
  rw [hout]
  have hperm : List.Perm
      (((rankedRows df scores).insertionSort (fun p q => p.2 ≤ q.2)).map Prod.fst)
      ((rankedRows df scores).map Prod.fst) :=
    (List.perm_insertionSort _ _).map _
  refine hperm.trans ?_
  have hmaps : (rankedRows df scores).map Prod.fst
      = (df.zip scores).map (fun p => withScoreCols p.1 p.2 (denseRank scores p.2)) := by
    simp [rankedRows, List.map_map]
  rw [hmaps]
  have heq : ∀ p ∈ df.zip scores,
      withScoreCols p.1 p.2 (denseRank scores p.2)
        = p.1 ++ [("business_score", PyVal.num p.2),
                  ("rank", PyVal.num ((denseRank scores p.2 : ℕ) : ℚ))] := by
    intro p hp
    obtain ⟨hbs, hr⟩ := hfree p.1 (List.of_mem_zip hp).1
    exact withScoreCols_append _ _ _ hbs hr
  rw [List.map_congr_left heq]

theorem c7_witness :
    ∃ scores, mapScores exampleDf = Except.ok scores
      ∧ scores.length = exampleDf.length
      ∧ List.Perm exampleOut ((exampleDf.zip scores).map (fun p =>
          p.1 ++ [("business_score", PyVal.num p.2),
                  ("rank", PyVal.num ((denseRank scores p.2 : ℕ) : ℚ))])) :=
  c7_frame_preservation exampleDf exampleOut (by decide) exampleDf_eval
